import Mathlib

/-!
Verification of the pattern-finder core of next_ev (src/main.rs).

Embedding conventions:
* Rust u64 and u32 values are modelled as natural numbers. Arithmetic that the
  Rust program performs with checked semantics (overflow, underflow and
  division by zero panic in a debug build, and the concrete executions
  relevant here also panic in a release build) is modelled by functions
  returning Option: a `none` result models a panic, `some` a normal return.
  Where an operation can exceed the u64 range, the embedding tests the exact
  natural-number result against `u64Max` and returns `none` on overflow.
* The source computes digit_count with 64-bit floating point:
  `(n as f64 + 1.).log(base as f64).ceil() as u32`. The embedding
  `digit_count` below denotes the exact real value of that expression,
  `ceil (log_base (n + 1))`, evaluated in exact integer arithmetic.
  The floating-point realization itself is outside this embedding.
-/

/-- Largest value representable in a Rust u64. -/
def u64Max : ℕ := 18446744073709551615

/-- Fuel-driven digit counter: `countDigits base fuel m` is the number of
base-`base` digits of `m` (0 for `m = 0`), provided `m < base ^ fuel`.
Fuel 64 is sufficient for every u64 value and every base of the program. -/
def countDigits (base : ℕ) : ℕ → ℕ → ℕ
  | 0, _ => 0
  | fuel + 1, m => if m = 0 then 0 else countDigits base fuel (m / base) + 1

/-- Embeds `digit_count(n, base)` from src/main.rs, the exact value of
`ceil(log_base(n + 1))`: 0 for n = 0, and the number of base-`base` digits of
`n` otherwise. The source evaluates this expression in f64 arithmetic; this
definition is its exact real-arithmetic denotation. -/
def digit_count (n base : ℕ) : ℕ := countDigits base 64 n

/-- Embeds `first_digit(n, base)`: `n / base.pow(digit_count(n, base) - 1)`.
When `digit_count(n, base) = 0` (that is, n = 0) the u32 subtraction
`digit_count(n, base) - 1` underflows: a debug build panics there, and a
release build wraps the exponent to `u32::MAX`, so that for the even bases of
this program the wrapped power is 0 modulo 2^64 and the division panics.
Either way the call does not return; this is modelled by `none`. -/
def first_digit (n base : ℕ) : Option ℕ :=
  if digit_count n base = 0 then none
  else some (n / base ^ (digit_count n base - 1))

theorem countDigits_eq {base : ℕ} (hb : 2 ≤ base) :
    ∀ fuel m, m < base ^ fuel →
      countDigits base fuel m = if m = 0 then 0 else Nat.log base m + 1 := by
  intro fuel
  induction fuel with
  | zero =>
    intro m hm
    simp only [pow_zero, Nat.lt_one_iff] at hm
    simp [countDigits, hm]
  | succ fuel ih =>
    intro m hm
    by_cases h0 : m = 0
    · simp [countDigits, h0]
    · have hbpos : 0 < base := by omega
      have hdiv : m / base < base ^ fuel := by
        rw [Nat.div_lt_iff_lt_mul hbpos]
        calc m < base ^ (fuel + 1) := hm
        _ = base ^ fuel * base := by rw [pow_succ]
      rw [countDigits, if_neg h0, ih (m / base) hdiv]
      rw [if_neg h0]
      by_cases hsmall : m < base
      · have hq : m / base = 0 := Nat.div_eq_of_lt hsmall
        have hlog : Nat.log base m = 0 := Nat.log_eq_zero_iff.mpr (Or.inl hsmall)
        simp [hq, hlog]
      · have hge : base ≤ m := le_of_not_lt hsmall
        have hq : m / base ≠ 0 := by
          have : 1 ≤ m / base := (Nat.one_le_div_iff hbpos).mpr hge
          omega
        have hlogpos : 0 < Nat.log base m := Nat.log_pos (by omega) hge
        rw [if_neg hq, Nat.log_div_base]
        omega

theorem digit_count_eq {n base : ℕ} (hb : 2 ≤ base) (hn : n ≤ u64Max) :
    digit_count n base = if n = 0 then 0 else Nat.log base n + 1 := by
  have h64 : n < base ^ 64 := by
    have h2 : n < 2 ^ 64 := by
      have : u64Max < 2 ^ 64 := by norm_num [u64Max]
      omega
    exact lt_of_lt_of_le h2 (Nat.pow_le_pow_left hb 64)
  exact countDigits_eq hb 64 n h64

theorem digit_count_zero (base : ℕ) : digit_count 0 base = 0 := rfl

theorem digit_count_pos {n base : ℕ} (hn : 1 ≤ n) : 1 ≤ digit_count n base := by
  have : n ≠ 0 := by omega
  simp [digit_count, countDigits, this]

theorem digit_count_eq_zero_iff {n base : ℕ} : digit_count n base = 0 ↔ n = 0 := by
  constructor
  · intro h
    by_contra hn
    have : 1 ≤ digit_count n base := digit_count_pos (by omega)
    omega
  · intro h; subst h; rfl

/-- For 1 ≤ n ≤ u64Max, n is below base to the power digit_count. -/
theorem lt_pow_digit_count {n base : ℕ} (hb : 2 ≤ base) (hn : n ≤ u64Max) :
    n < base ^ digit_count n base := by
  rcases Nat.eq_zero_or_pos n with h0 | hpos
  · subst h0; simp [digit_count_zero]
  · rw [digit_count_eq hb hn, if_neg (by omega)]
    exact Nat.lt_pow_succ_log_self (by omega) n

/-- For 1 ≤ n ≤ u64Max, base to the power digit_count minus one is at most n. -/
theorem pow_digit_count_pred_le {n base : ℕ} (hb : 2 ≤ base) (hn1 : 1 ≤ n)
    (hn : n ≤ u64Max) : base ^ (digit_count n base - 1) ≤ n := by
  rw [digit_count_eq hb hn, if_neg (by omega)]
  simpa using Nat.pow_log_le_self base (by omega : n ≠ 0)

/-- Generic division bound: a is below (a / b + 1) * b for positive b. -/
theorem lt_div_succ_mul (a b : ℕ) (hb : 0 < b) : a < (a / b + 1) * b :=
  (Nat.div_lt_iff_lt_mul hb).mp (Nat.lt_succ_self _)

/-- The leading digit of 1 ≤ n ≤ u64Max is a digit of the base. -/
theorem first_digit_lt {n base fd : ℕ} (hb : 2 ≤ base) (hn : n ≤ u64Max)
    (h : first_digit n base = some fd) : fd < base := by
  rw [first_digit] at h
  split at h
  · exact absurd h (by simp)
  · rename_i hdc
    have hn1 : 1 ≤ n := by
      rcases Nat.eq_zero_or_pos n with h0 | h1
      · exact absurd (h0 ▸ digit_count_zero base) hdc
      · exact h1
    have hlt : n < base ^ digit_count n base := lt_pow_digit_count hb hn
    have hdc1 : 1 ≤ digit_count n base := digit_count_pos hn1
    have hpow : base ^ digit_count n base = base ^ (digit_count n base - 1) * base := by
      rw [← pow_succ]
      congr 1
      omega
    have hBpos : 0 < base ^ (digit_count n base - 1) := Nat.pos_pow_of_pos _ (by omega)
    have : n / base ^ (digit_count n base - 1) < base := by
      rw [Nat.div_lt_iff_lt_mul hBpos]
      calc n < base ^ digit_count n base := hlt
      _ = base * base ^ (digit_count n base - 1) := by rw [hpow]; ring
    simp only [Option.some.injEq] at h
    omega

/-- The leading digit of n ≥ 1 is at least 1. -/
theorem first_digit_pos {n base fd : ℕ} (hb : 2 ≤ base) (hn1 : 1 ≤ n)
    (hn : n ≤ u64Max) (h : first_digit n base = some fd) : 1 ≤ fd := by
  rw [first_digit] at h
  split at h
  · exact absurd h (by simp)
  · have hle : base ^ (digit_count n base - 1) ≤ n := pow_digit_count_pred_le hb hn1 hn
    have hBpos : 0 < base ^ (digit_count n base - 1) := Nat.pos_pow_of_pos _ (by omega)
    simp only [Option.some.injEq] at h
    have : 1 ≤ n / base ^ (digit_count n base - 1) :=
      (Nat.one_le_div_iff hBpos).mpr hle
    omega

/-- Embeds the struct `Pattern { value: u64, base: u8 }`. -/
structure Pattern where
  value : ℕ
  base : ℕ
deriving DecidableEq

/-- Embeds `RoundNumberFinder::find_next`. The source first computes
`digit_count(n - 1, base)` and `first_digit(n - 1, base)`; for n = 0 the u64
subtraction n - 1 underflows (panic), and for n = 1 the call
`first_digit(0, base)` panics, both modelled by `none`. Otherwise, outside
2 ≤ digits ≤ 19 the sentinel Pattern with value 0 is returned, and inside the
range the value `(first_digit + 1) * base ^ (digits - 1)` is returned; if that
u64 product overflows (which happens for base 16 when digits = 16 and
first_digit = 15) the embedding returns `none`. -/
def RoundNumberFinder.find_next (n base : ℕ) : Option Pattern :=
  if n = 0 then none
  else (first_digit (n - 1) base).bind fun fd =>
    if 19 < digit_count (n - 1) base ∨ digit_count (n - 1) base < 2 then some ⟨0, base⟩
    else if (fd + 1) * base ^ (digit_count (n - 1) base - 1) ≤ u64Max then
      some ⟨(fd + 1) * base ^ (digit_count (n - 1) base - 1), base⟩
    else none

/-- Any pattern returned by the round-number finder carries the requested base
and is either the sentinel or a representable value at least n. -/
theorem round_find_next_sound {n base : ℕ} {p : Pattern} (hb : 2 ≤ base)
    (h : RoundNumberFinder.find_next n base = some p) :
    p.base = base ∧ (p.value = 0 ∨ (n ≤ p.value ∧ p.value ≤ u64Max)) := by
  rw [RoundNumberFinder.find_next] at h
  split at h
  · exact absurd h (by simp)
  · rcases hfd : first_digit (n - 1) base with _ | fd
    · rw [hfd] at h; exact absurd h (by simp)
    · rw [hfd, Option.some_bind] at h
      split at h
      · simp only [Option.some.injEq] at h
        subst h
        exact ⟨rfl, Or.inl rfl⟩
      · split at h
        · rename_i hov
          simp only [Option.some.injEq] at h
          subst h
          refine ⟨rfl, Or.inr ⟨?_, hov⟩⟩
          show n ≤ (fd + 1) * base ^ (digit_count (n - 1) base - 1)
          have hBpos : 0 < base ^ (digit_count (n - 1) base - 1) :=
            Nat.pos_pow_of_pos _ (by omega)
          have hfd_eq : fd = (n - 1) / base ^ (digit_count (n - 1) base - 1) := by
            rw [first_digit] at hfd
            split at hfd
            · exact absurd hfd (by simp)
            · simp only [Option.some.injEq] at hfd
              omega
          have := lt_div_succ_mul (n - 1) (base ^ (digit_count (n - 1) base - 1)) hBpos
          rw [← hfd_eq] at this
          omega
        · exact absurd h (by simp)

/-- Embeds the loop of `RepeatedNumberFinder::get_repeat_number`: starting
from `res`, performs `k` steps of `res = res * base + fd` with checked u64
arithmetic; `none` models an overflow panic. -/
def repeatAux (base fd : ℕ) : ℕ → ℕ → Option ℕ
  | 0, res => some res
  | k + 1, res =>
    if res * base + fd ≤ u64Max then repeatAux base fd k (res * base + fd) else none

/-- Embeds `RepeatedNumberFinder::get_repeat_number(first_digit, digits, base)`:
`res` starts at `first_digit` and the loop body runs for the range
`1..digits`, that is `digits - 1` times. -/
def RepeatedNumberFinder.get_repeat_number (fd digits base : ℕ) : Option ℕ :=
  repeatAux base fd (digits - 1) fd

/-- The exact repdigit value with j + 1 digits d in the given base. -/
def repNat (base d : ℕ) : ℕ → ℕ
  | 0 => d
  | j + 1 => repNat base d j * base + d

theorem repeatAux_eq_repNat {base fd : ℕ} :
    ∀ k res r, repeatAux base fd k res = some r →
      ∀ j, res = repNat base fd j → r = repNat base fd (j + k) := by
  intro k
  induction k with
  | zero =>
    intro res r h j hres
    simp only [repeatAux, Option.some.injEq] at h
    rw [Nat.add_zero]
    omega
  | succ k ih =>
    intro res r h j hres
    rw [repeatAux] at h
    split at h
    · have := ih (res * base + fd) r h (j + 1) (by rw [repNat, hres])
      rw [this]
      congr 1
      omega
    · exact absurd h (by simp)

theorem get_repeat_number_eq {base fd digits r : ℕ}
    (h : RepeatedNumberFinder.get_repeat_number fd digits base = some r) :
    r = repNat base fd (digits - 1) := by
  have := @repeatAux_eq_repNat base fd (digits - 1) fd r h 0 rfl
  simpa using this

theorem repeatAux_le {base fd : ℕ} :
    ∀ k res r, repeatAux base fd k res = some r → res ≤ u64Max → r ≤ u64Max := by
  intro k
  induction k with
  | zero =>
    intro res r h hres
    simp only [repeatAux, Option.some.injEq] at h
    omega
  | succ k ih =>
    intro res r h hres
    rw [repeatAux] at h
    split at h
    · exact ih _ r h (by assumption)
    · exact absurd h (by simp)

theorem repeatAux_ge {base fd : ℕ} :
    ∀ k res r, repeatAux base fd k res = some r → res * base ^ k ≤ r := by
  intro k
  induction k with
  | zero =>
    intro res r h
    simp only [repeatAux, Option.some.injEq] at h
    rw [pow_zero, Nat.mul_one, h]
  | succ k ih =>
    intro res r h
    rw [repeatAux] at h
    split at h
    · have hrec := ih (res * base + fd) r h
      calc res * base ^ (k + 1) = res * base * base ^ k := by ring
      _ ≤ (res * base + fd) * base ^ k := by
          exact Nat.mul_le_mul_right _ (Nat.le_add_right _ _)
      _ ≤ r := hrec
    · exact absurd h (by simp)

/-- A repdigit with digits below the base is below the power of the base with
that many digits. -/
theorem repNat_lt_pow {base d : ℕ} (hd : d < base) :
    ∀ j, repNat base d j < base ^ (j + 1) := by
  intro j
  induction j with
  | zero => simpa [repNat] using hd
  | succ j ih =>
    rw [repNat]
    show repNat base d j * base + d < base ^ (j + 2)
    have h1 : repNat base d j ≤ base ^ (j + 1) - 1 := by omega
    have hbpos : 0 < base := by omega
    have h2 : repNat base d j * base ≤ (base ^ (j + 1) - 1) * base :=
      Nat.mul_le_mul_right _ h1
    have h3 : (base ^ (j + 1) - 1) * base = base ^ (j + 2) - base := by
      have hp : 1 ≤ base ^ (j + 1) := Nat.one_le_pow _ _ hbpos
      have : base ^ (j + 1) * base = base ^ (j + 2) := by ring
      calc (base ^ (j + 1) - 1) * base = base ^ (j + 1) * base - 1 * base :=
            (Nat.sub_mul _ _ _)
      _ = base ^ (j + 2) - base := by rw [this, one_mul]
    have hp2 : base ≤ base ^ (j + 2) := by
      calc base = base ^ 1 := (pow_one base).symm
      _ ≤ base ^ (j + 2) := Nat.pow_le_pow_right hbpos (by omega)
    omega

/-- The repdigit of the largest digit is exactly the predecessor of the power
of the base. -/
theorem repNat_max_digit {base : ℕ} (hb : 2 ≤ base) :
    ∀ j, repNat base (base - 1) j = base ^ (j + 1) - 1 := by
  intro j
  induction j with
  | zero => simp [repNat]
  | succ j ih =>
    rw [repNat, ih]
    show (base ^ (j + 1) - 1) * base + (base - 1) = base ^ (j + 2) - 1
    have hp : 1 ≤ base ^ (j + 1) := Nat.one_le_pow _ _ (by omega)
    have h1 : (base ^ (j + 1) - 1) * base = base ^ (j + 2) - base := by
      have : base ^ (j + 1) * base = base ^ (j + 2) := by ring
      calc (base ^ (j + 1) - 1) * base = base ^ (j + 1) * base - 1 * base :=
            (Nat.sub_mul _ _ _)
      _ = base ^ (j + 2) - base := by rw [this, one_mul]
    have hp2 : base ≤ base ^ (j + 2) := by
      calc base = base ^ 1 := (pow_one base).symm
      _ ≤ base ^ (j + 2) := Nat.pow_le_pow_right (by omega) (by omega)
    omega

/-- Embeds `RepeatedNumberFinder::find_next`: builds the repdigit from the
leading digit of n over digit_count(n, base) digits; if it is at least n it is
returned, otherwise the repdigit with the incremented digit is returned.
A panic of `first_digit` (n = 0) or of the u64 arithmetic inside
`get_repeat_number` is modelled by `none`. -/
def RepeatedNumberFinder.find_next (n base : ℕ) : Option Pattern :=
  (first_digit n base).bind fun fd =>
    (RepeatedNumberFinder.get_repeat_number fd (digit_count n base) base).bind fun res =>
      if n ≤ res then some ⟨res, base⟩
      else (RepeatedNumberFinder.get_repeat_number (fd + 1) (digit_count n base) base).map
        fun r => ⟨r, base⟩

/-- Any pattern returned by the repeated-digit finder carries the requested
base and a representable value at least n. -/
theorem repeated_find_next_sound {n base : ℕ} {p : Pattern}
    (hb : 2 ≤ base) (hbu : base ≤ 255) (hn : n ≤ u64Max)
    (h : RepeatedNumberFinder.find_next n base = some p) :
    p.base = base ∧ n ≤ p.value ∧ p.value ≤ u64Max := by
  rw [RepeatedNumberFinder.find_next] at h
  rcases hfd : first_digit n base with _ | fd
  · rw [hfd] at h; exact absurd h (by simp)
  · rw [hfd, Option.some_bind] at h
    have hn1 : 1 ≤ n := by
      by_contra hc
      have h0 : n = 0 := by omega
      rw [first_digit, h0, digit_count_zero] at hfd
      simp at hfd
    have hfd_eq : fd = n / base ^ (digit_count n base - 1) := by
      rw [first_digit] at hfd
      split at hfd
      · exact absurd hfd (by simp)
      · simp only [Option.some.injEq] at hfd
        omega
    rcases hres : RepeatedNumberFinder.get_repeat_number fd (digit_count n base) base
      with _ | res
    · rw [hres] at h; exact absurd h (by simp)
    · rw [hres, Option.some_bind] at h
      split at h
      · rename_i hge
        simp only [Option.some.injEq] at h
        subst h
        refine ⟨rfl, hge, ?_⟩
        have hfdle : fd ≤ u64Max := by
          have : fd ≤ n := hfd_eq ▸ Nat.div_le_self _ _
          omega
        exact repeatAux_le _ fd res hres hfdle
      · rcases hr2 : RepeatedNumberFinder.get_repeat_number (fd + 1)
          (digit_count n base) base with _ | r2
        · rw [hr2] at h; exact absurd h (by simp)
        · rw [hr2] at h
          simp only [Option.map_some', Option.some.injEq] at h
          subst h
          refine ⟨rfl, ?_, ?_⟩
          · show n ≤ r2
            have hge2 : (fd + 1) * base ^ (digit_count n base - 1) ≤ r2 := by
              have := @repeatAux_ge base (fd + 1)
                (digit_count n base - 1) (fd + 1) r2 hr2
              omega
            have hBpos : 0 < base ^ (digit_count n base - 1) :=
              Nat.pos_pow_of_pos _ (by omega)
            have hlt := lt_div_succ_mul n (base ^ (digit_count n base - 1)) hBpos
            rw [← hfd_eq] at hlt
            omega
          · show r2 ≤ u64Max
            have hfdlt : fd < base := first_digit_lt hb hn hfd
            have hfd1 : fd + 1 ≤ u64Max := by
              have : (255 : ℕ) ≤ u64Max := by norm_num [u64Max]
              omega
            exact repeatAux_le _ (fd + 1) r2 hr2 hfd1

/-- Embeds the loop of `SequenceFinder::find_next`: the loop variable i runs
from 2 to base - 1, so the body runs at most base - 2 times, counted by the
first argument. In each pass the current res is compared with n before being
updated; when the passes are exhausted the updated res of the last pass is
discarded and the sentinel Pattern with value 0 is returned, exactly as in
the source. The u64 updates are checked; `none` models an overflow panic
(never reached for the bases 10 and 16 of the program). -/
def SequenceFinder.findLoop (reverse : Bool) (n base : ℕ) : ℕ → ℕ → ℕ → Option Pattern
  | 0, _, _ => some ⟨0, base⟩
  | count + 1, i, res =>
    if n ≤ res then some ⟨res, base⟩
    else
      if reverse then
        if res + base ^ digit_count res base * i ≤ u64Max then
          SequenceFinder.findLoop reverse n base count (i + 1)
            (res + base ^ digit_count res base * i)
        else none
      else
        if res * base + i ≤ u64Max then
          SequenceFinder.findLoop reverse n base count (i + 1) (res * base + i)
        else none

/-- Embeds `SequenceFinder::find_next` for `SequenceFinder { reverse }`:
res starts at 1 and i at 2. -/
def SequenceFinder.find_next (reverse : Bool) (n base : ℕ) : Option Pattern :=
  SequenceFinder.findLoop reverse n base (base - 2) 2 1

/-- Any pattern returned by a sequence finder carries the requested base and
is either the sentinel or a representable value at least n. -/
theorem SequenceFinder.findLoop_sound {reverse : Bool} {n base : ℕ} :
    ∀ count i res p, res ≤ u64Max →
      SequenceFinder.findLoop reverse n base count i res = some p →
      p.base = base ∧ (p.value = 0 ∨ (n ≤ p.value ∧ p.value ≤ u64Max)) := by
  intro count
  induction count with
  | zero =>
    intro i res p hres h
    simp only [SequenceFinder.findLoop, Option.some.injEq] at h
    subst h
    exact ⟨rfl, Or.inl rfl⟩
  | succ count ih =>
    intro i res p hres h
    rw [SequenceFinder.findLoop] at h
    split at h
    · rename_i hge
      simp only [Option.some.injEq] at h
      subst h
      exact ⟨rfl, Or.inr ⟨hge, hres⟩⟩
    · split at h
      · split at h
        · exact ih _ _ p (by assumption) h
        · exact absurd h (by simp)
      · split at h
        · exact ih _ _ p (by assumption) h
        · exact absurd h (by simp)

theorem sequence_find_next_sound {reverse : Bool} {n base : ℕ} {p : Pattern}
    (h : SequenceFinder.find_next reverse n base = some p) :
    p.base = base ∧ (p.value = 0 ∨ (n ≤ p.value ∧ p.value ≤ u64Max)) := by
  refine SequenceFinder.findLoop_sound (base - 2) 2 1 p ?_ h
  norm_num [u64Max]

/-- Insertion into a list sorted ascending by the value field, used to embed
the stable `sort_by` on `value` of `MultiPatternFinder::find_patterns`. -/
def insertByValue (p : Pattern) : List Pattern → List Pattern
  | [] => [p]
  | q :: qs => if p.value ≤ q.value then p :: q :: qs else q :: insertByValue p qs

/-- Insertion sort ascending by the value field, embedding
`res.sort_by(|l, r| l.value.cmp(&r.value))`. -/
def sortByValue : List Pattern → List Pattern
  | [] => []
  | p :: ps => insertByValue p (sortByValue ps)

theorem mem_insertByValue {q p : Pattern} :
    ∀ l, (q ∈ insertByValue p l ↔ q = p ∨ q ∈ l) := by
  intro l
  induction l with
  | nil => simp [insertByValue]
  | cons x xs ih =>
    rw [insertByValue]
    split
    · simp
    · simp only [List.mem_cons, ih]
      tauto

theorem mem_sortByValue {q : Pattern} : ∀ l, (q ∈ sortByValue l ↔ q ∈ l) := by
  intro l
  induction l with
  | nil => simp [sortByValue]
  | cons x xs ih =>
    rw [sortByValue, mem_insertByValue]
    simp [ih]

/-- The sorted list is empty exactly when the input is, and otherwise its head
is a minimum of the input with respect to the value field. -/
theorem sortByValue_head_min :
    ∀ l : List Pattern, sortByValue l = [] ∨
      ∃ hd tl, sortByValue l = hd :: tl ∧ hd ∈ l ∧ ∀ q ∈ l, hd.value ≤ q.value := by
  intro l
  induction l with
  | nil => exact Or.inl rfl
  | cons x xs ih =>
    right
    rcases ih with hnil | ⟨hd, tl, heq, hmem, hmin⟩
    · rw [sortByValue, hnil]
      refine ⟨x, [], rfl, List.mem_cons_self x xs, ?_⟩
      intro q hq
      have hxs : xs = [] := by
        cases hxs : xs with
        | nil => rfl
        | cons y ys =>
          exfalso
          have : y ∈ sortByValue xs := (mem_sortByValue xs).mpr (by simp [hxs])
          rw [hnil] at this
          exact absurd this (by simp)
      rw [hxs] at hq
      simp only [List.mem_cons, List.not_mem_nil, or_false] at hq
      subst hq
      exact Nat.le_refl _
    · rw [sortByValue, heq, insertByValue]
      split
      · rename_i hle
        refine ⟨x, hd :: tl, rfl, List.mem_cons_self x xs, ?_⟩
        intro q hq
        rcases List.mem_cons.mp hq with h | h
        · subst h; exact Nat.le_refl _
        · exact Nat.le_trans hle (hmin q h)
      · rename_i hgt
        refine ⟨hd, insertByValue x tl, rfl, List.mem_cons_of_mem x hmem, ?_⟩
        intro q hq
        rcases List.mem_cons.mp hq with h | h
        · subst h; omega
        · exact hmin q h

/-- Embeds `MultiPatternFinder::find_patterns`: apply the five finders of
`MultiPatternFinder::new` (round number, repeated digit, two forward sequence
finders, one reverse sequence finder) in order, keep the results whose value
differs from 0, and sort them ascending by value. Any finder panic aborts the
whole call, modelled by `none`. -/
def MultiPatternFinder.find_patterns (n base : ℕ) : Option (List Pattern) :=
  (RoundNumberFinder.find_next n base).bind fun p1 =>
  (RepeatedNumberFinder.find_next n base).bind fun p2 =>
  (SequenceFinder.find_next false n base).bind fun p3 =>
  (SequenceFinder.find_next false n base).bind fun p4 =>
  (SequenceFinder.find_next true n base).bind fun p5 =>
  some (sortByValue (List.filter (fun p => p.value ≠ 0) [p1, p2, p3, p4, p5]))

/-- Embeds the selection loop of `MultiPatternFinder::find_next`: best_delta
starts at u64::MAX and best_pattern at Pattern::default() (value 0, base 0);
for each pattern the u64 delta `p.value - n` is computed (`none` models the
underflow panic when p.value is below n, which is unreachable for the lists
produced by find_patterns) and a strictly smaller delta replaces the best. -/
def MultiPatternFinder.selectLoop (n : ℕ) : List Pattern → ℕ → Pattern → Option Pattern
  | [], _, best => some best
  | p :: ps, bestDelta, best =>
    if p.value < n then none
    else if p.value - n < bestDelta then
      MultiPatternFinder.selectLoop n ps (p.value - n) p
    else MultiPatternFinder.selectLoop n ps bestDelta best

/-- Embeds `MultiPatternFinder::find_next` (trait impl for
MultiPatternFinder). -/
def MultiPatternFinder.find_next (n base : ℕ) : Option Pattern :=
  (MultiPatternFinder.find_patterns n base).bind fun l =>
    MultiPatternFinder.selectLoop n l u64Max ⟨0, 0⟩

/-- Once the running best has the minimal delta, the selection loop keeps it. -/
theorem MultiPatternFinder.selectLoop_keep {n : ℕ} :
    ∀ l bd best, (∀ q ∈ l, n ≤ q.value) → (∀ q ∈ l, bd ≤ q.value - n) →
      MultiPatternFinder.selectLoop n l bd best = some best := by
  intro l
  induction l with
  | nil => intro bd best _ _; rfl
  | cons x xs ih =>
    intro bd best hge hmin
    have hx : n ≤ x.value := hge x (List.mem_cons_self x xs)
    have hxd : bd ≤ x.value - n := hmin x (List.mem_cons_self x xs)
    rw [MultiPatternFinder.selectLoop, if_neg (by omega), if_neg (by omega)]
    exact ih bd best (fun q hq => hge q (List.mem_cons_of_mem x hq))
      (fun q hq => hmin q (List.mem_cons_of_mem x hq))

/-- On a list whose head is value-minimal and whose members are representable
values at least n ≥ 1, the selection loop started as in the source returns the
head. -/
theorem MultiPatternFinder.selectLoop_head {n : ℕ} {hd : Pattern} {tl : List Pattern}
    (hn1 : 1 ≤ n) (hge : ∀ q ∈ hd :: tl, n ≤ q.value)
    (hle : ∀ q ∈ hd :: tl, q.value ≤ u64Max)
    (hmin : ∀ q ∈ hd :: tl, hd.value ≤ q.value) :
    MultiPatternFinder.selectLoop n (hd :: tl) u64Max ⟨0, 0⟩ = some hd := by
  have hhd : n ≤ hd.value := hge hd (List.mem_cons_self hd tl)
  have hhdle : hd.value ≤ u64Max := hle hd (List.mem_cons_self hd tl)
  rw [MultiPatternFinder.selectLoop, if_neg (by omega), if_pos (by omega)]
  exact MultiPatternFinder.selectLoop_keep tl (hd.value - n) hd
    (fun q hq => hge q (List.mem_cons_of_mem hd hq))
    (fun q hq => Nat.sub_le_sub_right (hmin q (List.mem_cons_of_mem hd hq)) n)

/-- The round-number finder only returns (rather than panicking) for n ≥ 2:
n = 0 underflows n - 1 and n = 1 reaches first_digit(0, base). -/
theorem RoundNumberFinder.find_next_two_le {n base : ℕ} {p : Pattern}
    (h : RoundNumberFinder.find_next n base = some p) : 2 ≤ n := by
  by_contra hc
  rw [RoundNumberFinder.find_next] at h
  have : n = 0 ∨ n = 1 := by omega
  rcases this with h0 | h1
  · rw [if_pos h0] at h
    exact absurd h (by simp)
  · rw [if_neg (by omega), h1] at h
    have hfd : first_digit (1 - 1) base = none := by
      rw [first_digit]
      simp [digit_count_zero]
    rw [hfd] at h
    exact absurd h (by simp)

/-- Full characterization of a successful `find_patterns` call and of the
`find_next` selection on its result: the call implies n ≥ 2, the list is
sorted ascending by value, nonempty (the repeated-digit finder always
contributes), all members carry the requested base and a representable value
at least n, and `find_next` returns the first (hence minimum-value) member. -/
theorem MultiPatternFinder.find_patterns_char {n base : ℕ} {l : List Pattern}
    (hb : 2 ≤ base) (hbu : base ≤ 255) (hn : n ≤ u64Max)
    (h : MultiPatternFinder.find_patterns n base = some l) :
    2 ≤ n ∧ l ≠ [] ∧
    (∀ q ∈ l, n ≤ q.value ∧ q.value ≤ u64Max ∧ q.base = base) ∧
    MultiPatternFinder.find_next n base = some (l.headD ⟨0, 0⟩) ∧
    l.headD ⟨0, 0⟩ ∈ l ∧ (∀ q ∈ l, (l.headD ⟨0, 0⟩).value ≤ q.value) := by
  have hfind : MultiPatternFinder.find_next n base =
      MultiPatternFinder.selectLoop n l u64Max ⟨0, 0⟩ := by
    rw [MultiPatternFinder.find_next, h, Option.some_bind]
  rw [MultiPatternFinder.find_patterns] at h
  rcases h1 : RoundNumberFinder.find_next n base with _ | p1
  · rw [h1] at h; exact absurd h (by simp)
  rcases h2 : RepeatedNumberFinder.find_next n base with _ | p2
  · rw [h1, h2] at h; exact absurd h (by simp)
  rcases h3 : SequenceFinder.find_next false n base with _ | p3
  · rw [h1, h2, h3] at h; exact absurd h (by simp)
  rcases h5 : SequenceFinder.find_next true n base with _ | p5
  · rw [h1, h2, h3, h5] at h; exact absurd h (by simp)
  rw [h1, h2, h3, h5] at h
  simp only [Option.some_bind, Option.some.injEq] at h
  have hn2 : 2 ≤ n := RoundNumberFinder.find_next_two_le h1
  have hl : l = sortByValue (List.filter (fun p => p.value ≠ 0) [p1, p2, p3, p3, p5]) :=
    h.symm
  have hp2 := repeated_find_next_sound hb hbu hn h2
  have hmemq : ∀ q ∈ l, n ≤ q.value ∧ q.value ≤ u64Max ∧ q.base = base := by
    intro q hq
    rw [hl, mem_sortByValue, List.mem_filter] at hq
    rcases hq with ⟨hqmem, hqnz⟩
    have hqnz : q.value ≠ 0 := by
      simpa using hqnz
    simp only [List.mem_cons, List.not_mem_nil, or_false] at hqmem
    rcases hqmem with hq1 | hq2 | hq3 | hq3' | hq5
    · subst hq1
      rcases round_find_next_sound hb h1 with ⟨hbase, h0 | ⟨hge, hle⟩⟩
      · exact absurd h0 hqnz
      · exact ⟨hge, hle, hbase⟩
    · subst hq2
      exact ⟨hp2.2.1, hp2.2.2, hp2.1⟩
    · subst hq3
      rcases sequence_find_next_sound h3 with ⟨hbase, h0 | ⟨hge, hle⟩⟩
      · exact absurd h0 hqnz
      · exact ⟨hge, hle, hbase⟩
    · subst hq3'
      rcases sequence_find_next_sound h3 with ⟨hbase, h0 | ⟨hge, hle⟩⟩
      · exact absurd h0 hqnz
      · exact ⟨hge, hle, hbase⟩
    · subst hq5
      rcases sequence_find_next_sound h5 with ⟨hbase, h0 | ⟨hge, hle⟩⟩
      · exact absurd h0 hqnz
      · exact ⟨hge, hle, hbase⟩
  have hp2mem : p2 ∈ l := by
    rw [hl, mem_sortByValue, List.mem_filter]
    refine ⟨by simp, ?_⟩
    have : p2.value ≠ 0 := by omega
    simpa using this
  have hlnil : l ≠ [] := List.ne_nil_of_mem hp2mem
  rcases sortByValue_head_min (List.filter (fun p => p.value ≠ 0) [p1, p2, p3, p3, p5])
    with hnil | ⟨hd, tl, heq, hmem, hmin⟩
  · rw [hl] at hlnil
    exact absurd hnil hlnil
  · have hlcons : l = hd :: tl := by rw [hl, heq]
    have hhead : l.headD ⟨0, 0⟩ = hd := by rw [hlcons]; rfl
    have hhd_mem : hd ∈ l := by
      rw [hl, mem_sortByValue]
      exact hmem
    have hmin_l : ∀ q ∈ l, hd.value ≤ q.value := by
      intro q hq
      rw [hl, mem_sortByValue] at hq
      exact hmin q hq
    refine ⟨hn2, hlnil, hmemq, ?_, hhead ▸ hhd_mem, fun q hq => hhead ▸ hmin_l q hq⟩
    rw [hfind, hlcons]
    show MultiPatternFinder.selectLoop n (hd :: tl) u64Max ⟨0, 0⟩ = some hd
    exact MultiPatternFinder.selectLoop_head (by omega)
      (fun q hq => (hmemq q (hlcons ▸ hq)).1)
      (fun q hq => (hmemq q (hlcons ▸ hq)).2.1)
      (fun q hq => hmin_l q (hlcons ▸ hq))

/-- Calendar date with the fields of chrono NaiveDate used by the program:
year (i32, modelled as an integer), month and day (u32, modelled as naturals,
1-based). -/
structure Date where
  year : ℤ
  month : ℕ
  day : ℕ
deriving DecidableEq

/-- Proleptic Gregorian leap-year rule, as implemented by chrono. -/
def isLeapYear (y : ℤ) : Bool := (y % 4 == 0 && y % 100 != 0) || y % 400 == 0

/-- Number of days of the given month in the given year (0 outside 1..12). -/
def daysInMonth (y : ℤ) (m : ℕ) : ℕ :=
  if m = 1 then 31
  else if m = 2 then (if isLeapYear y then 29 else 28)
  else if m = 3 then 31
  else if m = 4 then 30
  else if m = 5 then 31
  else if m = 6 then 30
  else if m = 7 then 31
  else if m = 8 then 31
  else if m = 9 then 30
  else if m = 10 then 31
  else if m = 11 then 30
  else if m = 12 then 31
  else 0

/-- A structurally valid calendar date: month in 1..12 and day existing in
that month of that year. -/
def Date.valid (d : Date) : Prop :=
  1 ≤ d.month ∧ d.month ≤ 12 ∧ 1 ≤ d.day ∧ d.day ≤ daysInMonth d.year d.month

instance (d : Date) : Decidable d.valid := by
  unfold Date.valid
  infer_instance

/-- Embeds chrono `NaiveDate::from_ymd`, which panics on an invalid
year/month/day combination; the panic is modelled by `none`. The year-range
limits of chrono are not modelled. -/
def from_ymd (y : ℤ) (m d : ℕ) : Option Date :=
  if 1 ≤ m ∧ m ≤ 12 ∧ 1 ≤ d ∧ d ≤ daysInMonth y m then some ⟨y, m, d⟩ else none

/-- Embeds `add_months_to_date(date, months)` from src/main.rs:
`months += month - 1; year += months / 12; month = months % 12 + 1;
NaiveDate::from_ymd(year, month, date.day())`. The u64 quantity months is a
natural number, so the source u32 and i32 casts are exact for every value
below 2^31, which covers all uses considered here. -/
def add_months_to_date (date : Date) (months : ℕ) : Option Date :=
  from_ymd (date.year + ((months + (date.month - 1)) / 12 : ℕ))
    ((months + (date.month - 1)) % 12 + 1) date.day

/-- Embeds the day-unit count computed in `main`:
`let n = (seconds as f64 / s).ceil() as u64` with s = 86400 for TimeUnit::Day.
As with digit_count, the embedding is the exact real-arithmetic value of the
expression, the ceiling of seconds / 86400. -/
def dayCount (seconds : ℕ) : ℕ := (seconds + 86399) / 86400

/-- Models the projected target date of the day-unit base-10 candidate of
`main`, as a day index relative to an arbitrary reference day index ref:
`DeltaCandidate::add_to_date` adds `Duration::seconds(value * 86400)` to the
reference date, that is exactly value days. -/
def dayTarget (ref seconds : ℕ) : Option ℕ :=
  (MultiPatternFinder.find_next (dayCount seconds) 10).map fun p => ref + p.value

/-- Results of the four individual pattern finders of the program at
(n, base), in the order they are constructed in `MultiPatternFinder::new`
(the duplicated forward sequence finder listed once). -/
def finderResults (n base : ℕ) : List (Option Pattern) :=
  [RoundNumberFinder.find_next n base,
   RepeatedNumberFinder.find_next n base,
   SequenceFinder.find_next false n base,
   SequenceFinder.find_next true n base]

/-- C1: for every n ≥ 1 and base in {10, 16}, every non-sentinel Pattern
(value different from 0) returned by an individual pattern finder find_next
satisfies value ≥ n and carries the requested base. -/
theorem C1_finder_results_ge (n base : ℕ) (p : Pattern)
    (h1 : 1 ≤ n) (hmax : n ≤ u64Max) (hb : base = 10 ∨ base = 16)
    (hmem : some p ∈ finderResults n base) (hnz : p.value ≠ 0) :
    n ≤ p.value ∧ p.base = base := by
  have hb2 : 2 ≤ base := by rcases hb with h | h <;> omega
  have hbu : base ≤ 255 := by rcases hb with h | h <;> omega
  simp only [finderResults, List.mem_cons, List.not_mem_nil, or_false] at hmem
  rcases hmem with h | h | h | h
  · rcases round_find_next_sound hb2 h.symm with ⟨hbase, h0 | ⟨hge, _⟩⟩
    · exact absurd h0 hnz
    · exact ⟨hge, hbase⟩
  · rcases repeated_find_next_sound hb2 hbu hmax h.symm with ⟨hbase, hge, _⟩
    exact ⟨hge, hbase⟩
  · rcases sequence_find_next_sound h.symm with ⟨hbase, h0 | ⟨hge, _⟩⟩
    · exact absurd h0 hnz
    · exact ⟨hge, hbase⟩
  · rcases sequence_find_next_sound h.symm with ⟨hbase, h0 | ⟨hge, _⟩⟩
    · exact absurd h0 hnz
    · exact ⟨hge, hbase⟩

theorem C1_finder_results_ge_witness :
    (47 : ℕ) ≤ (Pattern.mk 50 10).value ∧ (Pattern.mk 50 10).base = 10 :=
  C1_finder_results_ge 47 10 ⟨50, 10⟩ (by decide) (by decide) (Or.inl rfl)
    (by decide) (by decide)

/-- C2 counterexample: the claim quantifies over every n ≥ 1, but at n = 1
`MultiPatternFinder::find_next` does not return the minimum-delta candidate or
the sentinel: the round-number finder inside find_patterns panics
(first_digit(0, base)), so the call never returns a Pattern at all. -/
theorem C2_counterexample : MultiPatternFinder.find_next 1 10 = none := by decide

/-- C2 amended: whenever `find_patterns(n, base)` completes without
panicking (which excludes n = 0 and n = 1 and the overflow inputs), find_next
returns the first element of the sorted candidate list, which is a member of
minimum delta value - n, and the sentinel Pattern of value 0 when the list is
empty. -/
theorem C2_find_next_min_delta (n base : ℕ) (l : List Pattern)
    (hmax : n ≤ u64Max) (hb : base = 10 ∨ base = 16)
    (hl : MultiPatternFinder.find_patterns n base = some l) :
    MultiPatternFinder.find_next n base = some (l.headD ⟨0, 0⟩) ∧
    (l = [] → l.headD ⟨0, 0⟩ = ⟨0, 0⟩) ∧
    (l ≠ [] → l.headD ⟨0, 0⟩ ∈ l ∧
      ∀ q ∈ l, (l.headD ⟨0, 0⟩).value - n ≤ q.value - n) := by
  have hb2 : 2 ≤ base := by rcases hb with h | h <;> omega
  have hbu : base ≤ 255 := by rcases hb with h | h <;> omega
  obtain ⟨hn2, hlnil, hmemq, hfind, hhd, hmin⟩ :=
    MultiPatternFinder.find_patterns_char hb2 hbu hmax hl
  refine ⟨hfind, ?_, ?_⟩
  · intro hnil; rw [hnil]; rfl
  · intro _
    exact ⟨hhd, fun q hq => Nat.sub_le_sub_right (hmin q hq) n⟩

theorem C2_find_next_min_delta_witness :
    MultiPatternFinder.find_next 99 16 =
      some (([⟨102, 16⟩, ⟨112, 16⟩, ⟨291, 16⟩, ⟨291, 16⟩, ⟨801, 16⟩] :
        List Pattern).headD ⟨0, 0⟩) :=
  (C2_find_next_min_delta 99 16
    [⟨102, 16⟩, ⟨112, 16⟩, ⟨291, 16⟩, ⟨291, 16⟩, ⟨801, 16⟩]
    (by decide) (Or.inr rfl) (by decide)).1

/-- C3 counterexample: at an elapsed-seconds value whose day count is exactly
99, the day-unit base-10 candidate has pattern value 99 (the repeated-digit
finder returns 99 ≥ 99 with delta 0), not 100, and the projected target is
reference + 99 days, not reference + 100 days. -/
theorem C3_counterexample :
    dayCount 8553600 = 99 ∧
    MultiPatternFinder.find_next (dayCount 8553600) 10 = some ⟨99, 10⟩ ∧
    dayTarget 0 8553600 = some 99 ∧ (99 : ℕ) ≠ 100 := by decide

/-- C3 amended: when the elapsed delta corresponds to a day count of exactly
99, the day-unit candidate for base 10 has pattern value 99 and its projected
target date is the reference date plus 99 days. -/
theorem C3_day_candidate_99 (ref seconds : ℕ) (h : dayCount seconds = 99) :
    MultiPatternFinder.find_next (dayCount seconds) 10 = some ⟨99, 10⟩ ∧
    dayTarget ref seconds = some (ref + 99) := by
  have h99 : MultiPatternFinder.find_next 99 10 = some ⟨99, 10⟩ := by decide
  constructor
  · rw [h]; exact h99
  · rw [dayTarget, h, h99]; rfl

theorem C3_day_candidate_99_witness :
    MultiPatternFinder.find_next (dayCount 8553600) 10 = some ⟨99, 10⟩ ∧
    dayTarget 0 8553600 = some (0 + 99) :=
  C3_day_candidate_99 0 8553600 (by decide)

/-- C4: the nearest-match result of the multi-pattern finder, whenever it
returns at all, is never the sentinel: its value is nonzero (indeed at least
n). Since main pushes exactly these results as candidates, no candidate with
pattern value 0 ever participates in winner selection. -/
theorem C4_no_sentinel_candidate (n base : ℕ) (p : Pattern)
    (hmax : n ≤ u64Max) (hb : base = 10 ∨ base = 16)
    (hp : MultiPatternFinder.find_next n base = some p) : p.value ≠ 0 := by
  have hb2 : 2 ≤ base := by rcases hb with h | h <;> omega
  have hbu : base ≤ 255 := by rcases hb with h | h <;> omega
  rcases hl : MultiPatternFinder.find_patterns n base with _ | l
  · rw [MultiPatternFinder.find_next, hl] at hp
    exact absurd hp (by simp)
  · obtain ⟨hn2, hlnil, hmemq, hfind, hhd, hmin⟩ :=
      MultiPatternFinder.find_patterns_char hb2 hbu hmax hl
    rw [hfind, Option.some.injEq] at hp
    have := (hmemq _ hhd).1
    rw [hp] at this
    omega

theorem C4_no_sentinel_candidate_witness : (Pattern.mk 50 10).value ≠ 0 :=
  C4_no_sentinel_candidate 50 10 ⟨50, 10⟩ (by decide) (Or.inl rfl) (by decide)

/-- C5 (divergence of the code from the claim): the ascending sequence finder
compares res with n only before updating it, so the progression value built in
the last pass (123456789 for base 10) is never compared and never returned:
at n = 100000000 the finder returns the sentinel although the full progression
value 123456789 is at least n. The second conjunct shows that the same loop
given one more pass would return exactly that value. -/
theorem C5_sequence_last_value_dropped :
    SequenceFinder.find_next false 100000000 10 = some ⟨0, 10⟩ ∧
    SequenceFinder.findLoop false 100000000 10 9 2 1 = some ⟨123456789, 10⟩ := by
  decide

/-- C6 (divergence of the code from the claim): the round-number finder is not
total on n ≥ 1. At n = 1 it panics in first_digit(0, base) before reaching its
sentinel guard (modelled by none), and at n = 0xF000000000000001 in base 16 the
in-range digit count 16 leads to the product 16 * 16^15 = 2^64, which
overflows u64 instead of producing a sentinel. -/
theorem C6_round_finder_panics :
    RoundNumberFinder.find_next 1 10 = none ∧
    RoundNumberFinder.find_next 17293822569102704641 16 = none := by decide

/-- Division characterization: if k * n ≤ m < (k + 1) * n then m / n = k. -/
theorem div_eq_of_between {m n k : ℕ} (hn : 0 < n) (lo : k * n ≤ m)
    (hi : m < (k + 1) * n) : m / n = k := by
  have hle : k ≤ m / n := (Nat.le_div_iff_mul_le hn).mpr lo
  have hlt : m / n < k + 1 := (Nat.div_lt_iff_lt_mul hn).mpr hi
  omega

/-- C7 counterexample: at n = 1 the digit count of n - 1 is 0 < 2, so the
claim requires the sentinel Pattern of value 0; the code instead panics in
first_digit(0, base) before reaching the guard (modelled by none). -/
theorem C7_counterexample :
    digit_count (1 - 1) 10 < 2 ∧
    RoundNumberFinder.find_next 1 10 ≠ some ⟨0, 10⟩ := by decide

/-- C7 amended: for 2 ≤ n ≤ u64::MAX and base in {10, 16}, with
k = digit_count(n - 1, base) and fd = (n - 1) / base ^ (k - 1): outside
2 ≤ k ≤ 19 the finder returns the sentinel; inside the range it returns
(fd + 1) * base ^ (k - 1), the smallest value of the form
(d + 1) * base ^ (k - 1) that is ≥ n, provided that value is representable in
u64 (for base 16 the value 16^16 = 2^64 overflows instead, modelled by none);
and when n is an exact power of the base with k in range the result is n
itself. At n = 1 the code panics instead of returning the sentinel. -/
theorem C7_round_characterization (n base : ℕ)
    (h2 : 2 ≤ n) (hmax : n ≤ u64Max) (hb : base = 10 ∨ base = 16) :
    (digit_count (n - 1) base < 2 ∨ 19 < digit_count (n - 1) base →
      RoundNumberFinder.find_next n base = some ⟨0, base⟩) ∧
    (2 ≤ digit_count (n - 1) base → digit_count (n - 1) base ≤ 19 →
      ((n - 1) / base ^ (digit_count (n - 1) base - 1) + 1) *
          base ^ (digit_count (n - 1) base - 1) ≤ u64Max →
      RoundNumberFinder.find_next n base =
        some ⟨((n - 1) / base ^ (digit_count (n - 1) base - 1) + 1) *
          base ^ (digit_count (n - 1) base - 1), base⟩ ∧
      n ≤ ((n - 1) / base ^ (digit_count (n - 1) base - 1) + 1) *
          base ^ (digit_count (n - 1) base - 1) ∧
      (∀ d, n ≤ (d + 1) * base ^ (digit_count (n - 1) base - 1) →
        ((n - 1) / base ^ (digit_count (n - 1) base - 1) + 1) *
          base ^ (digit_count (n - 1) base - 1) ≤
          (d + 1) * base ^ (digit_count (n - 1) base - 1))) ∧
    (2 ≤ digit_count (n - 1) base → digit_count (n - 1) base ≤ 19 →
      u64Max < ((n - 1) / base ^ (digit_count (n - 1) base - 1) + 1) *
          base ^ (digit_count (n - 1) base - 1) →
      RoundNumberFinder.find_next n base = none) ∧
    (∀ j, 1 ≤ j → n = base ^ j → 2 ≤ digit_count (n - 1) base →
      digit_count (n - 1) base ≤ 19 →
      RoundNumberFinder.find_next n base = some ⟨n, base⟩) := by
  have hb2 : 2 ≤ base := by rcases hb with h | h <;> omega
  have hdc0 : digit_count (n - 1) base ≠ 0 := fun hc =>
    absurd (digit_count_eq_zero_iff.mp hc) (by omega)
  have hfd : first_digit (n - 1) base =
      some ((n - 1) / base ^ (digit_count (n - 1) base - 1)) := by
    rw [first_digit, if_neg hdc0]
  have hne : RoundNumberFinder.find_next n base =
      (if 19 < digit_count (n - 1) base ∨ digit_count (n - 1) base < 2
        then some ⟨0, base⟩
        else if ((n - 1) / base ^ (digit_count (n - 1) base - 1) + 1) *
            base ^ (digit_count (n - 1) base - 1) ≤ u64Max
          then some ⟨((n - 1) / base ^ (digit_count (n - 1) base - 1) + 1) *
            base ^ (digit_count (n - 1) base - 1), base⟩
          else none) := by
    rw [RoundNumberFinder.find_next, if_neg (by omega : ¬n = 0), hfd, Option.some_bind]
  have hBpos : 0 < base ^ (digit_count (n - 1) base - 1) :=
    Nat.pos_pow_of_pos _ (by omega)
  refine ⟨?_, ?_, ?_, ?_⟩
  · intro hout
    rw [hne, if_pos (by omega)]
  · intro hk2 hk19 hov
    rw [hne, if_neg (by omega), if_pos hov]
    refine ⟨rfl, ?_, ?_⟩
    · have := lt_div_succ_mul (n - 1) (base ^ (digit_count (n - 1) base - 1)) hBpos
      omega
    · intro d hd
      by_contra hc
      push_neg at hc
      have hdfd : d + 1 < (n - 1) / base ^ (digit_count (n - 1) base - 1) + 1 :=
        lt_of_mul_lt_mul_right hc (Nat.zero_le _)
      have hle1 : (d + 1) * base ^ (digit_count (n - 1) base - 1) ≤
          ((n - 1) / base ^ (digit_count (n - 1) base - 1)) *
            base ^ (digit_count (n - 1) base - 1) :=
        Nat.mul_le_mul_right _ (by omega)
      have hle2 : ((n - 1) / base ^ (digit_count (n - 1) base - 1)) *
          base ^ (digit_count (n - 1) base - 1) ≤ n - 1 :=
        Nat.div_mul_le_self _ _
      omega
  · intro hk2 hk19 hov
    rw [hne, if_neg (by omega), if_neg (by omega)]
  · intro j hj1 hnpow hk2 hk19
    subst hnpow
    have hval1 : 1 ≤ base ^ j - 1 := by
      have h2j : 2 ≤ base ^ j := by
        calc 2 ≤ base := hb2
        _ = base ^ 1 := (pow_one base).symm
        _ ≤ base ^ j := Nat.pow_le_pow_right (by omega) hj1
      omega
    have hj11 : j - 1 + 1 = j := by omega
    have hplt : base ^ (j - 1) < base ^ j := Nat.pow_lt_pow_right (by omega) (by omega)
    have hexp : base ^ (j - 1) * base = base ^ j := by
      rw [← pow_succ, hj11]
    have hlog : Nat.log base (base ^ j - 1) = j - 1 := by
      apply Nat.log_eq_of_pow_le_of_lt_pow
      · omega
      · rw [hj11]; omega
    have hdc : digit_count (base ^ j - 1) base = j := by
      rw [digit_count_eq hb2 (by omega), if_neg (by omega), hlog]
      omega
    have hfd_val : (base ^ j - 1) / base ^ (j - 1) = base - 1 := by
      apply div_eq_of_between (Nat.pos_pow_of_pos _ (by omega))
      · have : (base - 1) * base ^ (j - 1) =
            base ^ (j - 1) * base - base ^ (j - 1) := by
          rw [Nat.sub_mul, one_mul, Nat.mul_comm]
        rw [this, hexp]
        have hB1 : 1 ≤ base ^ (j - 1) := Nat.one_le_pow _ _ (by omega)
        omega
      · have hs : base - 1 + 1 = base := by omega
        rw [hs, Nat.mul_comm, hexp]
        omega
    rw [hne, if_neg (by omega), hdc, hfd_val]
    have hs : base - 1 + 1 = base := by omega
    rw [hs, Nat.mul_comm, hexp, if_pos hmax]

theorem C7_round_characterization_witness :
    RoundNumberFinder.find_next 101 10 =
      some ⟨((101 - 1) / 10 ^ (digit_count (101 - 1) 10 - 1) + 1) *
        10 ^ (digit_count (101 - 1) 10 - 1), 10⟩ :=
  ((C7_round_characterization 101 10 (by decide) (by decide) (Or.inl rfl)).2.1
    (by decide) (by decide) (by decide)).1

/-- C9: adding 0 months to a valid date returns it unchanged, and adding 12
months advances the year by exactly one with month and day unchanged, subject
to the day existing in the same month of the next year. -/
theorem C9_add_months_zero_and_twelve (d : Date) (hv : d.valid) :
    add_months_to_date d 0 = some d ∧
    (d.day ≤ daysInMonth (d.year + 1) d.month →
      add_months_to_date d 12 = some ⟨d.year + 1, d.month, d.day⟩) := by
  obtain ⟨h1, h2, h3, h4⟩ := hv
  constructor
  · rw [add_months_to_date]
    have hdiv : (0 + (d.month - 1)) / 12 = 0 := by omega
    have hmod : (0 + (d.month - 1)) % 12 + 1 = d.month := by omega
    rw [hdiv, hmod]
    simp only [Nat.cast_zero, add_zero]
    rw [from_ymd, if_pos ⟨h1, h2, h3, h4⟩]
  · intro hday
    rw [add_months_to_date]
    have hdiv : (12 + (d.month - 1)) / 12 = 1 := by omega
    have hmod : (12 + (d.month - 1)) % 12 + 1 = d.month := by omega
    rw [hdiv, hmod]
    simp only [Nat.cast_one]
    rw [from_ymd, if_pos ⟨h1, h2, h3, hday⟩]

theorem C9_add_months_zero_and_twelve_witness :
    add_months_to_date ⟨2020, 3, 15⟩ 0 = some ⟨2020, 3, 15⟩ ∧
    add_months_to_date ⟨2020, 3, 15⟩ 12 = some ⟨(2020 : ℤ) + 1, 3, 15⟩ :=
  ⟨(C9_add_months_zero_and_twelve ⟨2020, 3, 15⟩ (by decide)).1,
   (C9_add_months_zero_and_twelve ⟨2020, 3, 15⟩ (by decide)).2 (by decide)⟩

/-- C10 (implicit): whenever the repeated-digit finder takes its fallback
branch (the repdigit built from the leading digit is below n), the leading
digit is strictly below base - 1, so the incremented digit is still a valid
digit of the base, and the pattern returned by the fallback is a well-formed
repdigit: at least n and strictly below base ^ digit_count(n, base). -/
theorem C10_repeated_fallback_digit_valid (n base r : ℕ) (p : Pattern)
    (h1 : 1 ≤ n) (hmax : n ≤ u64Max) (hb : base = 10 ∨ base = 16)
    (hr : RepeatedNumberFinder.get_repeat_number
      (n / base ^ (digit_count n base - 1)) (digit_count n base) base = some r)
    (hlt : r < n)
    (hp : RepeatedNumberFinder.find_next n base = some p) :
    n / base ^ (digit_count n base - 1) < base - 1 ∧
    n ≤ p.value ∧ p.value < base ^ digit_count n base := by
  have hb2 : 2 ≤ base := by rcases hb with h | h <;> omega
  have hdc0 : digit_count n base ≠ 0 := fun hc =>
    absurd (digit_count_eq_zero_iff.mp hc) (by omega)
  have hdc1 : 1 ≤ digit_count n base := by omega
  have hfd : first_digit n base =
      some (n / base ^ (digit_count n base - 1)) := by
    rw [first_digit, if_neg hdc0]
  have hfdlt : n / base ^ (digit_count n base - 1) < base :=
    first_digit_lt hb2 hmax hfd
  have hfd_ne : n / base ^ (digit_count n base - 1) ≠ base - 1 := by
    intro hc
    have hrval : r = repNat base (n / base ^ (digit_count n base - 1))
        (digit_count n base - 1) := get_repeat_number_eq hr
    rw [hc, repNat_max_digit hb2] at hrval
    have hnk : n < base ^ digit_count n base := lt_pow_digit_count hb2 hmax
    have hexp : digit_count n base - 1 + 1 = digit_count n base := by omega
    rw [hexp] at hrval
    omega
  refine ⟨by omega, ?_⟩
  rw [RepeatedNumberFinder.find_next, hfd, Option.some_bind, hr,
    Option.some_bind, if_neg (by omega)] at hp
  rcases hr2 : RepeatedNumberFinder.get_repeat_number
      (n / base ^ (digit_count n base - 1) + 1) (digit_count n base) base
    with _ | r2
  · rw [hr2] at hp; exact absurd hp (by simp)
  · rw [hr2] at hp
    simp only [Option.map_some', Option.some.injEq] at hp
    subst hp
    constructor
    · show n ≤ r2
      have hge2 : (n / base ^ (digit_count n base - 1) + 1) *
          base ^ (digit_count n base - 1) ≤ r2 := by
        have := @repeatAux_ge base (n / base ^ (digit_count n base - 1) + 1)
          (digit_count n base - 1) (n / base ^ (digit_count n base - 1) + 1) r2 hr2
        omega
      have hBpos : 0 < base ^ (digit_count n base - 1) :=
        Nat.pos_pow_of_pos _ (by omega)
      have hlt2 := lt_div_succ_mul n (base ^ (digit_count n base - 1)) hBpos
      omega
    · show r2 < base ^ digit_count n base
      have hrval2 : r2 = repNat base (n / base ^ (digit_count n base - 1) + 1)
          (digit_count n base - 1) := get_repeat_number_eq hr2
      have hdig : n / base ^ (digit_count n base - 1) + 1 < base := by omega
      have := repNat_lt_pow hdig (digit_count n base - 1)
      have hexp : digit_count n base - 1 + 1 = digit_count n base := by omega
      rw [hexp] at this
      omega

theorem C10_repeated_fallback_digit_valid_witness :
    47 / 10 ^ (digit_count 47 10 - 1) < 10 - 1 ∧
    47 ≤ (Pattern.mk 55 10).value ∧
    (Pattern.mk 55 10).value < 10 ^ digit_count 47 10 :=
  C10_repeated_fallback_digit_valid 47 10 44 ⟨55, 10⟩ (by decide) (by decide)
    (Or.inl rfl) (by decide) (by decide) (by decide)
